import Mathlib

/-!
Verification development for the bound-computation engine of
`ore_algebra/analytic/bounds.py` (majorant series, rational-sequence bounds,
Graeffe root isolation, and the `DiffOpBound` orchestrator).

The embedding is shallow:

* exact number-field scalars are modelled by rational numbers (the
  development restricts instances to rational real data, a subring of the
  number fields the source accepts); they are represented by the
  kernel-computable fraction type `Frac`, except in the `graeffe` section,
  which is algebraic and uses `ℚ` directly;
* real/complex balls (`RBF`/`CBF` in the source) are modelled by closed
  intervals `Iv` whose endpoints live in the extended rationals `EQ`
  (which include `-∞`, `+∞` and a `nan` element, mirroring Arb semantics:
  comparisons involving `nan` are false, `0·∞ = nan`, and so on);
* polynomials and truncated power series are coefficient lists (index `i`
  is the coefficient of `z^i`); all series operations (`_mul_trunc_`,
  `inverse_series_trunc`, `compose_trunc`, `power_trunc`, `_exp_series`)
  are implemented on lists following the source call sites;
* Python exceptions become `Except String`/`Option` results;
* external collaborators that the source consumes but does not implement
  (root finding for `_complex_roots`/`_poles`, the numeric
  `abs_min_nonzero_root` value used by the "simple" strategy) are passed in
  as explicit oracle data, mirroring the interface boundary described in the
  specification.
-/

set_option maxRecDepth 4000

/-! ### Exact rational scalars

`Frac` is an unreduced fraction of integers; every operation keeps the
denominator positive and performs no gcd reduction, so that all arithmetic
reduces inside the Lean kernel.  It models the exact rational scalars of
the source (number-field entries restricted to `ℚ` in this development).
Equality and order of the represented rationals are `beq`/`ble` (cross
multiplication); the structural equality of two `Frac` values is only used
between results of one and the same computation path. -/
structure Frac where
  n : ℤ
  d : ℤ
deriving DecidableEq, Repr

namespace Frac

def ofInt (k : ℤ) : Frac := ⟨k, 1⟩

def ofNat (k : ℕ) : Frac := ⟨(k : ℤ), 1⟩

def zero : Frac := ⟨0, 1⟩

def one : Frac := ⟨1, 1⟩

def add (a b : Frac) : Frac := ⟨a.n * b.d + b.n * a.d, a.d * b.d⟩

def neg (a : Frac) : Frac := ⟨-a.n, a.d⟩

def sub (a b : Frac) : Frac := add a (neg b)

def mul (a b : Frac) : Frac := ⟨a.n * b.n, a.d * b.d⟩

/-- Reciprocal; the reciprocal of zero is zero (all call sites guard the
zero case, as the source does). -/
def inv (a : Frac) : Frac :=
  if 0 < a.n then ⟨a.d, a.n⟩ else if a.n < 0 then ⟨-a.d, -a.n⟩ else zero

def div (a b : Frac) : Frac := mul a (inv b)

def absF (a : Frac) : Frac := ⟨|a.n|, a.d⟩

/-- Semantic equality of the represented rationals (denominators are kept
positive by all operations). -/
def beq (a b : Frac) : Bool := a.n * b.d == b.n * a.d

/-- Semantic `≤` of the represented rationals. -/
def ble (a b : Frac) : Bool := decide (a.n * b.d ≤ b.n * a.d)

/-- Semantic `<` of the represented rationals. -/
def blt (a b : Frac) : Bool := decide (a.n * b.d < b.n * a.d)

/-- Semantic `≤` as a proposition. -/
def Le (a b : Frac) : Prop := a.n * b.d ≤ b.n * a.d

instance (a b : Frac) : Decidable (Le a b) := by unfold Le; infer_instance

/-- Floor of the represented rational (denominator positive). -/
def floorF (a : Frac) : ℤ := Int.fdiv a.n a.d

/-- Ceiling of the represented rational. -/
def ceilF (a : Frac) : ℤ := -Int.fdiv (-a.n) a.d

end Frac

/-- Extended rationals: the value domain of the ball/interval layer.
`nan` models the Arb not-a-number; `ninf`/`inf` model `-∞`/`+∞`. -/
inductive EQ where
  | nan
  | ninf
  | fin (q : Frac)
  | inf
deriving DecidableEq, Repr

namespace EQ

/-- Addition with Arb-style conventions: `nan` absorbs, `∞ + (-∞) = nan`. -/
def add : EQ → EQ → EQ
  | nan, _ => nan
  | _, nan => nan
  | ninf, inf => nan
  | inf, ninf => nan
  | ninf, _ => ninf
  | _, ninf => ninf
  | inf, _ => inf
  | _, inf => inf
  | fin a, fin b => fin (Frac.add a b)

def neg : EQ → EQ
  | nan => nan
  | ninf => inf
  | inf => ninf
  | fin a => fin (Frac.neg a)

def sub (a b : EQ) : EQ := add a (neg b)

/-- Multiplication with Arb-style conventions: `nan` absorbs, `0·∞ = nan`. -/
def mul : EQ → EQ → EQ
  | nan, _ => nan
  | _, nan => nan
  | inf, inf => inf
  | inf, ninf => ninf
  | ninf, inf => ninf
  | ninf, ninf => inf
  | inf, fin b => if Frac.blt Frac.zero b then inf else if Frac.blt b Frac.zero then ninf else nan
  | fin a, inf => if Frac.blt Frac.zero a then inf else if Frac.blt a Frac.zero then ninf else nan
  | ninf, fin b => if Frac.blt Frac.zero b then ninf else if Frac.blt b Frac.zero then inf else nan
  | fin a, ninf => if Frac.blt Frac.zero a then ninf else if Frac.blt a Frac.zero then inf else nan
  | fin a, fin b => fin (Frac.mul a b)

def abs : EQ → EQ
  | nan => nan
  | ninf => inf
  | inf => inf
  | fin a => fin (Frac.absF a)

/-- Reciprocal of a nonzero extended value (used only away from zero). -/
def inv : EQ → EQ
  | nan => nan
  | ninf => fin Frac.zero
  | inf => fin Frac.zero
  | fin a => if Frac.beq a Frac.zero then nan else fin (Frac.inv a)

/-- Safe `≤` with the fail-closed discipline: any comparison involving
`nan` is false (undecided comparisons never succeed). -/
def leB : EQ → EQ → Bool
  | nan, _ => false
  | _, nan => false
  | ninf, _ => true
  | _, ninf => false
  | _, inf => true
  | inf, _ => false
  | fin a, fin b => Frac.ble a b

/-- Safe strict `<` with the same fail-closed discipline. -/
def ltB : EQ → EQ → Bool
  | nan, _ => false
  | _, nan => false
  | inf, _ => false
  | _, inf => true
  | _, ninf => false
  | ninf, _ => true
  | fin a, fin b => Frac.blt a b

def gtB (a b : EQ) : Bool := ltB b a

def minE : EQ → EQ → EQ
  | nan, _ => nan
  | _, nan => nan
  | ninf, _ => ninf
  | _, ninf => ninf
  | fin a, fin b => fin (if Frac.ble a b then a else b)
  | fin a, inf => fin a
  | inf, fin b => fin b
  | inf, inf => inf

def maxE : EQ → EQ → EQ
  | nan, _ => nan
  | _, nan => nan
  | inf, _ => inf
  | _, inf => inf
  | fin a, fin b => fin (if Frac.ble a b then b else a)
  | fin a, ninf => fin a
  | ninf, fin b => fin b
  | ninf, ninf => ninf

def isFinite : EQ → Bool
  | fin _ => true
  | _ => false

end EQ

/-- A real interval (model of a real ball, or of the real restriction of a
complex ball) with extended-rational endpoints. -/
structure Iv where
  lo : EQ
  hi : EQ
deriving DecidableEq, Repr

namespace Iv

/-- The exact (thin) interval `[x, x]`. -/
def pt (x : EQ) : Iv := ⟨x, x⟩

/-- The exact rational ball. -/
def ofF (q : Frac) : Iv := pt (EQ.fin q)

/-- The exact integer ball. -/
def ofZ (k : ℤ) : Iv := ofF (Frac.ofInt k)

def nanIv : Iv := ⟨EQ.nan, EQ.nan⟩

def add (a b : Iv) : Iv := ⟨EQ.add a.lo b.lo, EQ.add a.hi b.hi⟩

def neg (a : Iv) : Iv := ⟨EQ.neg a.hi, EQ.neg a.lo⟩

def sub (a b : Iv) : Iv := add a (neg b)

/-- Interval product: min/max over the four endpoint products
(`nan` poisons the result through `minE`/`maxE`). -/
def mul (a b : Iv) : Iv :=
  let p1 := EQ.mul a.lo b.lo
  let p2 := EQ.mul a.lo b.hi
  let p3 := EQ.mul a.hi b.lo
  let p4 := EQ.mul a.hi b.hi
  ⟨EQ.minE (EQ.minE p1 p2) (EQ.minE p3 p4),
   EQ.maxE (EQ.maxE p1 p2) (EQ.maxE p3 p4)⟩

def containsZero (a : Iv) : Bool :=
  EQ.leB a.lo (EQ.fin Frac.zero) && EQ.leB (EQ.fin Frac.zero) a.hi

/-- Interval reciprocal; an interval containing zero (or an undecided one)
yields the indeterminate interval, as Arb division does. -/
def inv (a : Iv) : Iv :=
  if EQ.ltB (EQ.fin Frac.zero) a.lo || EQ.ltB a.hi (EQ.fin Frac.zero) then
    ⟨EQ.inv a.hi, EQ.inv a.lo⟩
  else nanIv

def union (a b : Iv) : Iv := ⟨EQ.minE a.lo b.lo, EQ.maxE a.hi b.hi⟩

/-- Interval absolute value. -/
def absIv (a : Iv) : Iv :=
  if containsZero a then ⟨EQ.fin Frac.zero, EQ.maxE (EQ.abs a.lo) (EQ.abs a.hi)⟩
  else ⟨EQ.minE (EQ.abs a.lo) (EQ.abs a.hi), EQ.maxE (EQ.abs a.lo) (EQ.abs a.hi)⟩

/-- `above_abs`: a thin upper bound on the absolute value. -/
def aboveAbs (a : Iv) : Iv := pt (EQ.maxE (EQ.abs a.lo) (EQ.abs a.hi))

/-- `below_abs`: a thin lower bound on the absolute value. -/
def belowAbs (a : Iv) : Iv := pt (absIv a).lo

/-- Arb maximum of two balls, endpointwise. -/
def maxIv (a b : Iv) : Iv := ⟨EQ.maxE a.lo b.lo, EQ.maxE a.hi b.hi⟩

/-- Arb minimum of two balls, endpointwise. -/
def minIv (a b : Iv) : Iv := ⟨EQ.minE a.lo b.lo, EQ.minE a.hi b.hi⟩

def isFinite (a : Iv) : Bool := a.lo.isFinite && a.hi.isFinite

def powN (a : Iv) : ℕ → Iv
  | 0 => ofF Frac.one
  | n + 1 => mul a (powN a n)

/-- Model of `IC.zero().add_error(r)` restricted to the real line: the
symmetric interval of radius the upper bound of `r`. -/
def symmErr (r : Iv) : Iv := ⟨EQ.neg r.hi, r.hi⟩

end Iv

/-! ### Polynomials and truncated series over `ℚ` (coefficient lists) -/

/-- A polynomial over `ℚ`, as its list of coefficients (index = degree). -/
abbrev PolyQ := List ℚ

namespace PolyQ

def coeff (p : PolyQ) (i : ℕ) : ℚ := p.getD i 0

/-- Sage-style degree: `-1` for the zero polynomial (ignoring trailing
zero coefficients of the representation). -/
def deg (p : PolyQ) : ℤ := ((p.reverse.dropWhile (fun a => a = 0)).length : ℤ) - 1

def natDeg (p : PolyQ) : ℕ := (deg p).toNat

def eval (p : PolyQ) (x : ℚ) : ℚ := p.foldr (fun a acc => a + x * acc) 0

def addP : PolyQ → PolyQ → PolyQ
  | [], q => q
  | p, [] => p
  | a :: p, b :: q => (a + b) :: addP p q

def negP (p : PolyQ) : PolyQ := p.map (fun a => -a)

def subP (p q : PolyQ) : PolyQ := addP p (negP q)

def smulQ (c : ℚ) (p : PolyQ) : PolyQ := p.map (fun a => c * a)

def sumRange (n : ℕ) (f : ℕ → ℚ) : ℚ :=
  (List.range n).foldl (fun a i => a + f i) 0

/-- `x << n` (multiplication by `x^n`). -/
def shiftL (p : PolyQ) (n : ℕ) : PolyQ := List.replicate n 0 ++ p

/-- Full polynomial product. -/
def mulP : PolyQ → PolyQ → PolyQ
  | [], _ => []
  | a :: p, q => addP (smulQ a q) ((0 : ℚ) :: mulP p q)

end PolyQ

/-! ### Polynomials and truncated series with interval (ball) coefficients -/

/-- A polynomial with ball coefficients, as its coefficient list. -/
abbrev PolyIv := List Iv

namespace PolyIv

def coeff (p : PolyIv) (i : ℕ) : Iv := p.getD i (Iv.ofF Frac.zero)

def ofFP (p : List Frac) : PolyIv := p.map Iv.ofF

def addP (p q : PolyIv) : PolyIv :=
  (List.range (max p.length q.length)).map (fun i => Iv.add (coeff p i) (coeff q i))

def smulP (c : Iv) (p : PolyIv) : PolyIv := p.map (fun a => Iv.mul c a)

def sumIv (n : ℕ) (f : ℕ → Iv) : Iv :=
  (List.range n).foldl (fun a i => Iv.add a (f i)) (Iv.ofF Frac.zero)

/-- Ball-coefficient product truncated to `O(z^ord)`. -/
def mulTrunc (p q : PolyIv) (ord : ℕ) : PolyIv :=
  (List.range ord).map
    (fun k => sumIv (k + 1) (fun i => Iv.mul (coeff p i) (coeff q (k - i))))

/-- Ball-coefficient series inverse mod `z^ord`, by the standard coefficient
recurrence; a constant term whose ball meets zero propagates indeterminate
values through `Iv.inv`, as Arb division does. -/
def invTrunc (p : PolyIv) (ord : ℕ) : PolyIv :=
  let c := Iv.inv (coeff p 0)
  (List.range ord).foldl
    (fun bs k =>
      if k = 0 then [c]
      else bs ++ [Iv.neg (Iv.mul c
        (sumIv k (fun j => Iv.mul (coeff p (j + 1)) (coeff bs (k - 1 - j)))))])
    []

/-- Ball-coefficient composition truncated to `O(z^ord)`, by Horner. -/
def composeTrunc (p q : PolyIv) (ord : ℕ) : PolyIv :=
  p.foldr (fun a acc => addP [a] (mulTrunc q acc ord)) []

def shiftR (p : PolyIv) (n : ℕ) : PolyIv := p.drop n

def shiftL (p : PolyIv) (n : ℕ) : PolyIv := List.replicate n (Iv.ofF Frac.zero) ++ p

end PolyIv

/-! ### `graeffe` (C6)

Embedding of the pure polynomial transform from `bounds.py` over `ℚ[x]`
(the doctests apply it over `ℚ[x]`), on coefficient lists.  The source
builds the even part `[pol[2i] for i in range(deg/2+1)]`, the odd part
`[pol[2i+1] for i in range(deg/2+1)]` (integer part of `deg/2`, as the
doctests show), and returns `(-1)^deg · (even² − shift(odd², 1))`.
A list represents a Sage polynomial exactly when it is canonical, that is,
has no trailing zero coefficient. -/

/-- The list represents a Sage polynomial: no trailing zero coefficient
(the zero polynomial is the empty list). -/
def canonicalP (p : PolyQ) : Bool := p = [] || p.getLastD 0 ≠ 0

/-- Even part, exactly as extracted in `graeffe`. -/
def evenPart (p : PolyQ) : PolyQ :=
  (List.range (PolyQ.natDeg p / 2 + 1)).map (fun i => PolyQ.coeff p (2 * i))

/-- Odd part, exactly as extracted in `graeffe`. -/
def oddPart (p : PolyQ) : PolyQ :=
  (List.range (PolyQ.natDeg p / 2 + 1)).map (fun i => PolyQ.coeff p (2 * i + 1))

/-- The Graeffe iterate: `(-1)^deg * (pol_even**2 - (pol_odd**2).shift(1))`. -/
def graeffe (p : PolyQ) : PolyQ :=
  PolyQ.smulQ ((-1 : ℚ) ^ PolyQ.natDeg p)
    (PolyQ.subP (PolyQ.mulP (evenPart p) (evenPart p))
      (PolyQ.shiftL (PolyQ.mulP (oddPart p) (oddPart p)) 1))

namespace PolyQ

theorem eval_cons (a : ℚ) (p : PolyQ) (x : ℚ) :
    eval (a :: p) x = a + x * eval p x := rfl

theorem eval_nil (x : ℚ) : eval [] x = 0 := rfl

theorem eval_addP (p q : PolyQ) (x : ℚ) :
    eval (addP p q) x = eval p x + eval q x := by
  induction p generalizing q with
  | nil => simp [addP, eval_nil]
  | cons a p ih =>
    cases q with
    | nil => simp [addP, eval_nil]
    | cons b q => simp [addP, eval_cons, ih]; ring

theorem eval_negP (p : PolyQ) (x : ℚ) : eval (negP p) x = -eval p x := by
  induction p with
  | nil => simp [negP, eval_nil]
  | cons a p ih => simp [negP, eval_cons] at *; rw [ih]; ring

theorem eval_subP (p q : PolyQ) (x : ℚ) :
    eval (subP p q) x = eval p x - eval q x := by
  rw [subP, eval_addP, eval_negP]; ring

theorem eval_smulQ (c : ℚ) (p : PolyQ) (x : ℚ) :
    eval (smulQ c p) x = c * eval p x := by
  induction p with
  | nil => simp [smulQ, eval_nil]
  | cons a p ih => simp [smulQ, eval_cons] at *; rw [ih]; ring

theorem eval_mulP (p q : PolyQ) (x : ℚ) :
    eval (mulP p q) x = eval p x * eval q x := by
  induction p with
  | nil => simp [mulP, eval_nil]
  | cons a p ih =>
    simp [mulP, eval_addP, eval_smulQ, eval_cons, ih]; ring

theorem eval_append_single (l : PolyQ) (a : ℚ) (x : ℚ) :
    eval (l ++ [a]) x = eval l x + a * x ^ l.length := by
  induction l with
  | nil => simp [eval_cons, eval_nil]
  | cons b l ih => simp [eval_cons, ih]; ring

theorem eval_map_range (n : ℕ) (f : ℕ → ℚ) (x : ℚ) :
    eval ((List.range n).map f) x = ∑ i ∈ Finset.range n, f i * x ^ i := by
  induction n with
  | zero => simp [eval_nil]
  | succ n ih =>
    rw [List.range_succ, List.map_append, List.map_singleton,
      eval_append_single, ih, Finset.sum_range_succ]
    simp

theorem coeff_of_length_le (p : PolyQ) (i : ℕ) (h : p.length ≤ i) :
    coeff p i = 0 := by
  rw [coeff, List.getD_eq_default _ _ h]

theorem eval_eq_sum_coeff (p : PolyQ) (x : ℚ) :
    eval p x = ∑ i ∈ Finset.range p.length, coeff p i * x ^ i := by
  induction p with
  | nil => simp [eval_nil]
  | cons a p ih =>
    rw [eval_cons, ih, List.length_cons, Finset.sum_range_succ']
    have h0 : coeff (a :: p) 0 * x ^ 0 = a := by simp [coeff]
    have hsucc : ∀ i, coeff (a :: p) (i + 1) = coeff p i := fun i => rfl
    rw [h0]
    have : ∑ i ∈ Finset.range p.length, coeff (a :: p) (i + 1) * x ^ (i + 1)
        = x * ∑ i ∈ Finset.range p.length, coeff p i * x ^ i := by
      rw [Finset.mul_sum]
      refine Finset.sum_congr rfl (fun i _ => ?_)
      rw [hsucc, pow_succ]; ring
    rw [this]; ring

theorem eval_eq_sum_coeff_of_le (p : PolyQ) (x : ℚ) (N : ℕ) (h : p.length ≤ N) :
    eval p x = ∑ i ∈ Finset.range N, coeff p i * x ^ i := by
  rw [eval_eq_sum_coeff]
  refine Finset.sum_subset ?_ ?_
  · exact Finset.range_subset.mpr h
  · intro i _ hnot
    have : p.length ≤ i := by
      by_contra hlt
      exact hnot (Finset.mem_range.mpr (Nat.lt_of_not_le hlt))
    rw [coeff_of_length_le p i this, zero_mul]

theorem sum_range_two_mul (M : ℕ) (g : ℕ → ℚ) :
    ∑ n ∈ Finset.range (2 * M), g n
      = (∑ i ∈ Finset.range M, g (2 * i)) + ∑ i ∈ Finset.range M, g (2 * i + 1) := by
  induction M with
  | zero => simp
  | succ M ih =>
    have h2 : 2 * (M + 1) = 2 * M + 1 + 1 := by ring
    rw [h2, Finset.sum_range_succ, Finset.sum_range_succ,
      Finset.sum_range_succ (fun i => g (2 * i)),
      Finset.sum_range_succ (fun i => g (2 * i + 1)), ih]
    ring

theorem length_of_canonical (p : PolyQ) (hp : canonicalP p = true) (hne : p ≠ []) :
    p.length = natDeg p + 1 := by
  obtain ⟨ys, y, hconcat⟩ := List.eq_nil_or_concat p |>.resolve_left hne
  rw [List.concat_eq_append] at hconcat
  subst hconcat
  have hy : y ≠ 0 := by
    simpa [canonicalP, List.getLastD_concat] using hp
  have hdrop : ((ys ++ [y]).reverse.dropWhile (fun a => a = 0)) = y :: ys.reverse := by
    rw [List.reverse_append, List.reverse_singleton, List.singleton_append,
      List.dropWhile_cons]
    simp [hy]
  rw [natDeg, deg, hdrop]
  simp

theorem length_le_two_mul (p : PolyQ) (hp : canonicalP p = true) :
    p.length ≤ 2 * (natDeg p / 2 + 1) := by
  by_cases hne : p = []
  · subst hne; simp
  · have h := length_of_canonical p hp hne
    omega

theorem eval_even_odd (p : PolyQ) (hp : canonicalP p = true) (z : ℚ) :
    eval p z = eval (evenPart p) (z ^ 2) + z * eval (oddPart p) (z ^ 2) := by
  rw [eval_eq_sum_coeff_of_le p z (2 * (natDeg p / 2 + 1)) (length_le_two_mul p hp),
    sum_range_two_mul, evenPart, oddPart, eval_map_range, eval_map_range]
  congr 1
  · exact Finset.sum_congr rfl (fun i _ => by rw [pow_mul])
  · rw [Finset.mul_sum]
    refine Finset.sum_congr rfl (fun i _ => ?_)
    rw [pow_succ, pow_mul]; ring

theorem eval_even_odd_neg (p : PolyQ) (hp : canonicalP p = true) (z : ℚ) :
    eval p (-z) = eval (evenPart p) (z ^ 2) - z * eval (oddPart p) (z ^ 2) := by
  have h := eval_even_odd p hp (-z)
  rw [neg_sq] at h
  rw [h]; ring

end PolyQ

/-- C6: the Graeffe iterate satisfies
`graeffe(pol)(z^2) = (-1)^deg * pol(z) * pol(-z)` for every `z`, so by
construction (`graeffe = (-1)^deg (even_part^2 - shift(odd_part^2,1))`) its
roots are exactly the squares of the roots of `pol`. -/
theorem graeffe_eval_sq (p : PolyQ) (hp : canonicalP p = true) (z : ℚ) :
    PolyQ.eval (graeffe p) (z ^ 2)
      = (-1 : ℚ) ^ PolyQ.natDeg p * (PolyQ.eval p z * PolyQ.eval p (-z)) := by
  have hshift : PolyQ.eval (PolyQ.shiftL (PolyQ.mulP (oddPart p) (oddPart p)) 1) (z ^ 2)
      = z ^ 2 * PolyQ.eval (PolyQ.mulP (oddPart p) (oddPart p)) (z ^ 2) := by
    simp [PolyQ.shiftL, PolyQ.eval_cons]
  rw [graeffe, PolyQ.eval_smulQ, PolyQ.eval_subP, hshift, PolyQ.eval_mulP,
    PolyQ.eval_mulP, PolyQ.eval_even_odd p hp z, PolyQ.eval_even_odd_neg p hp z]
  ring

/-- Witness for C6 at the doctest polynomial
`6x^5 - 2x^4 - 2x^3 + 2x^2 + (1/12)x^4` and `z = 2`. -/
theorem graeffe_eval_sq_witness :
    canonicalP [0, 0, 2, -2, -23/12, 6] = true ∧
    PolyQ.eval (graeffe [0, 0, 2, -2, -23/12, 6]) ((2 : ℚ) ^ 2)
      = (-1 : ℚ) ^ PolyQ.natDeg [0, 0, 2, -2, -23/12, 6]
        * (PolyQ.eval [0, 0, 2, -2, -23/12, 6] 2 * PolyQ.eval [0, 0, 2, -2, -23/12, 6] (-2)) :=
  ⟨by decide, graeffe_eval_sq [0, 0, 2, -2, -23/12, 6] (by decide) 2⟩

/-! ### Polynomials over the exact scalars (`Frac` coefficient lists) -/

/-- An exact polynomial, as its list of `Frac` coefficients. -/
abbrev PolyF := List Frac

namespace PolyF

def coeff (p : PolyF) (i : ℕ) : Frac := p.getD i Frac.zero

def isZeroCo (a : Frac) : Bool := Frac.beq a Frac.zero

/-- Sage-style degree: `-1` for the zero polynomial. -/
def deg (p : PolyF) : ℤ := ((p.reverse.dropWhile isZeroCo).length : ℤ) - 1

def natDeg (p : PolyF) : ℕ := (deg p).toNat

def isZero (p : PolyF) : Bool := p.all isZeroCo

def leadCoeff (p : PolyF) : Frac := ((p.reverse.dropWhile isZeroCo).headD Frac.zero)

def isMonic (p : PolyF) : Bool := Frac.beq (leadCoeff p) Frac.one

/-- `is_term`: a single nonzero monomial. -/
def isTerm (p : PolyF) : Bool := (p.filter (fun a => !isZeroCo a)).length = 1

/-- `is_constant`: degree at most zero. -/
def isConst (p : PolyF) : Bool := deg p ≤ 0

/-- Valuation, with the source convention `pol.valuation() if pol else 0`
(the zero polynomial maps to zero). -/
def valuation : PolyF → ℕ
  | [] => 0
  | a :: p => if isZeroCo a then (if isZero p then 0 else valuation p + 1) else 0

def addP (p q : PolyF) : PolyF :=
  (List.range (max p.length q.length)).map (fun i => Frac.add (coeff p i) (coeff q i))

def negP (p : PolyF) : PolyF := p.map Frac.neg

def subP (p q : PolyF) : PolyF := addP p (negP q)

def smulF (c : Frac) (p : PolyF) : PolyF := p.map (Frac.mul c)

def sumF (n : ℕ) (f : ℕ → Frac) : Frac :=
  (List.range n).foldl (fun a i => Frac.add a (f i)) Frac.zero

/-- Full polynomial product. -/
def mulP (p q : PolyF) : PolyF :=
  (List.range (p.length + q.length)).map
    (fun k => sumF (k + 1) (fun i => Frac.mul (coeff p i) (coeff q (k - i))))

/-- Product truncated to `O(z^ord)` (`_mul_trunc_`). -/
def mulTrunc (p q : PolyF) (ord : ℕ) : PolyF :=
  (List.range ord).map
    (fun k => sumF (k + 1) (fun i => Frac.mul (coeff p i) (coeff q (k - i))))

/-- `inverse_series_trunc`; fails, as the exact Sage method does, when the
constant coefficient is zero. -/
def invTrunc (p : PolyF) (ord : ℕ) : Option PolyF :=
  if isZeroCo (coeff p 0) then none
  else
    let c := Frac.inv (coeff p 0)
    some ((List.range ord).foldl
      (fun bs k =>
        if k = 0 then [c]
        else bs ++ [Frac.neg (Frac.mul c
          (sumF k (fun j => Frac.mul (coeff p (j + 1)) (coeff bs (k - 1 - j)))))])
      [])

/-- Composition truncated to `O(z^ord)` (`compose_trunc`), by Horner. -/
def composeTrunc (p q : PolyF) (ord : ℕ) : PolyF :=
  p.foldr (fun a acc => addP [a] (mulTrunc q acc ord)) []

/-- Full composition. -/
def compose (p q : PolyF) : PolyF :=
  p.foldr (fun a acc => addP [a] (mulP q acc)) []

/-- `power_trunc`. -/
def powTrunc (q : PolyF) (m ord : ℕ) : PolyF :=
  match m with
  | 0 => [Frac.one]
  | m + 1 => mulTrunc q (powTrunc q m ord) ord

def powP (q : PolyF) : ℕ → PolyF
  | 0 => [Frac.one]
  | m + 1 => mulP q (powP q m)

/-- Antiderivative with zero constant term. -/
def integral (p : PolyF) : PolyF :=
  Frac.zero :: (p.enum.map (fun ia => Frac.div ia.2 (Frac.ofNat (ia.1 + 1))))

def shiftR (p : PolyF) (n : ℕ) : PolyF := p.drop n

def shiftL (p : PolyF) (n : ℕ) : PolyF := List.replicate n Frac.zero ++ p

/-- Reversal with respect to a prescribed degree: `p.reverse(d)`. -/
def reverseAt (p : PolyF) (d : ℕ) : PolyF :=
  (List.range (d + 1)).map (fun i => coeff p (d - i))

/-- Reversal with respect to the actual degree: `p.reverse()`. -/
def reverseP (p : PolyF) : PolyF := reverseAt p (natDeg p)

/-- Formal exponential of a truncated series, exact when the constant term
vanishes (otherwise `exp` of the constant term is transcendental and has no
exact rational value; the source computes it in ball arithmetic, and every
claim handled here only evaluates the vanishing-constant case). -/
def expTrunc (f : PolyF) (ord : ℕ) : Option PolyF :=
  if isZeroCo (coeff f 0) then
    some ((List.range ord).foldl
      (fun es k =>
        if k = 0 then [Frac.one]
        else es ++ [Frac.div
          (sumF k (fun j => Frac.mul (Frac.mul (Frac.ofNat (j + 1)) (coeff f (j + 1)))
            (coeff es (k - 1 - j))))
          (Frac.ofNat k)])
      [])
  else none

end PolyF

/-! ### `RatSeqBound` (C2, C5, C9)

Bounds on tails of vector-valued rational sequences `nums(n)/den(n)`.
The state mirrors the attributes set by `RatSeqBound.__init__`: the exact
numerator list, the (monic) denominator, the exceptional-index multiplicity
map, and the derivative order.  The interval versions (`_ivnums`,
`_rcpq_nums`, `_rcpq_den`) and the per-instance caches (`_den_data`,
`_stairs`) are pure functions of these fields in the source (recomputed or
invalidated deterministically), so they are modelled as derived functions.
`droots` is oracle data standing for the external root finder used by
`_complex_roots(den)`, restricted to real rational roots in this model. -/

/-- Generic three-way zip. -/
def zip3W {α β γ δ : Type} (f : α → β → γ → δ) : List α → List β → List γ → List δ
  | a :: as, b :: bs, c :: cs => f a b c :: zip3W f as bs cs
  | _, _, _ => []

/-- `a, a+1, ..., b` as integers (empty when `b < a`). -/
def zRange (a b : ℤ) : List ℤ :=
  if b < a then [] else (List.range ((b - a).toNat + 1)).map (fun i => a + (i : ℤ))

/-- Descending insertion sort (model of `sorted(exn, reverse=True)`). -/
def insDesc (x : ℕ) : List ℕ → List ℕ
  | [] => [x]
  | y :: ys => if y ≤ x then x :: y :: ys else y :: insDesc x ys

def sortDesc (l : List ℕ) : List ℕ := l.foldr insDesc []

structure RatSeqBound where
  nums : List PolyF
  den : PolyF
  exn : List (ℕ × ℕ)
  ord : ℕ
  droots : List (Frac × ℕ)
deriving DecidableEq, Repr

namespace RatSeqBound

def memExnN (exn : List (ℕ × ℕ)) (m : ℕ) : Bool := exn.any (fun km => km.1 = m)

def memExnZ (exn : List (ℕ × ℕ)) (m : ℤ) : Bool := exn.any (fun km => (km.1 : ℤ) = m)

/-- `__init__`: checks `deg(num) < deg(den)` for every numerator (hard
immediate failure otherwise), the monicity assertion on `den`, and the
default derivative order `1 + sum(exceptions.values())`. -/
def init (nums : List PolyF) (den : PolyF) (exn : List (ℕ × ℕ))
    (ordArg : Option ℕ) (droots : List (Frac × ℕ)) : Except String RatSeqBound :=
  if nums.any (fun num => PolyF.deg den ≤ PolyF.deg num) then
    .error "expected deg(num) < deg(den)"
  else
    let ord := ordArg.getD (1 + (exn.map Prod.snd).sum)
    if PolyF.isMonic den then .ok ⟨nums, den, exn, ord, droots⟩
    else .error "assertion failed: den.is_monic()"

/-- `extend`: appends numerator sequences without touching the rest of the
data ("Use with care!"); the numerator-dependent caches are derived
functions here, so clearing them needs no model step.  Note that, unlike
`__init__`, this performs no degree check. -/
def extend (s : RatSeqBound) (newNums : List PolyF) : RatSeqBound :=
  { s with nums := s.nums ++ newNums }

/-- The degree invariant claimed for the data model:
`deg(num) < deg(den)` for every numerator. -/
def degInvariant (s : RatSeqBound) : Bool :=
  s.nums.all (fun num => PolyF.deg num < PolyF.deg s.den)

def denDegN (s : RatSeqBound) : ℕ := PolyF.natDeg s.den

/-- `_ivnums` (derived). -/
def ivnums (s : RatSeqBound) : List PolyIv := s.nums.map PolyIv.ofFP

/-- `_ivden` (derived). -/
def ivden (s : RatSeqBound) : PolyIv := PolyIv.ofFP s.den

/-- `_rcpq_nums` (derived): `num.reverse(deg(den) - 1)`. -/
def rcpqNums (s : RatSeqBound) : List PolyIv :=
  s.nums.map (fun num => PolyIv.ofFP (PolyF.reverseAt num (denDegN s - 1)))

/-- `_rcpq_den` (derived): `den.reverse()`. -/
def rcpqDen (s : RatSeqBound) : PolyIv := PolyIv.ofFP (PolyF.reverseP s.den)

def nextFreeUpAux (exn : List (ℕ × ℕ)) : ℕ → ℤ → ℤ
  | 0, m => m
  | f + 1, m => if memExnZ exn m then nextFreeUpAux exn f (m + 1) else m

/-- First index `≥ m` outside the exceptional set (the `while ... in exn`
append loop; the fuel bounds the longest run of exceptional indices). -/
def nextFreeUp (exn : List (ℕ × ℕ)) (m : ℤ) : ℤ := nextFreeUpAux exn (exn.length + 1) m

def nextFreeDownAux (exn : List (ℕ × ℕ)) : ℕ → ℤ → ℤ
  | 0, m => m
  | f + 1, m => if memExnZ exn m then nextFreeDownAux exn f (m - 1) else m

/-- First index `≤ m` outside the exceptional set (the in-place decrement
loop on `ns[0]`). -/
def nextFreeDown (exn : List (ℕ × ℕ)) (m : ℤ) : ℤ := nextFreeDownAux exn (exn.length + 1) m

/-- `_den_data` (cached in the source, pure in the model): for each root of
`den` with positive real part, a tuple `(root, mult, n_min, global_lbound)`
where `|1 - root/n| ≥ global_lbound` for natural `n` outside the
exceptional set and the sequence is nondecreasing from `n_min` on. -/
def denData (s : RatSeqBound) : List (Frac × ℕ × ℤ × Iv) :=
  s.droots.foldr (fun rm acc =>
    let r := rm.1
    let mult := rm.2
    if Frac.ble r Frac.zero then acc
    else
      let crit : Frac := Frac.div (Frac.mul (Frac.absF r) (Frac.absF r)) r
      let nmin : ℤ := Frac.ceilF crit
      let ktop := nextFreeUp s.exn (Frac.ceilF crit)
      let hbot := nextFreeDown s.exn (Frac.floorF crit)
      let cands := (hbot :: zRange (Frac.floorF crit + 1) ktop).filter
        (fun n => decide (1 ≤ n) && !(memExnZ s.exn n))
      let glb := cands.foldl
        (fun acc n => Iv.minIv acc
          (Iv.absIv (Iv.sub (Iv.ofF Frac.one) (Iv.ofF (Frac.div r (Frac.ofInt n))))))
        (Iv.ofF Frac.one)
      (r, mult, nmin, Iv.powN (Iv.belowAbs glb) mult) :: acc) []

/-- `_lbound_den`: a lower bound on `prod(|1 - root/k|)` valid for all
`k ≥ n` outside the exceptional set. -/
def lboundDen (s : RatSeqBound) (n : ℕ) : Iv :=
  if n = 0 then Iv.ofF Frac.zero
  else (denData s).foldl (fun res d =>
    if (n : ℤ) < d.2.2.1 then Iv.mul res d.2.2.2
    else Iv.mul res
      (Iv.powN (Iv.absIv (Iv.sub (Iv.ofF Frac.one)
        (Iv.ofF (Frac.div d.1 (Frac.ofNat n))))) d.2.1))
    (Iv.ofF Frac.one)

/-- The body of the final loop of `_bound_rat`:
`bound = (invabscst * sum(c.above_abs() for c in ser)).above_abs()`,
with a non-finite result collapsed to the `+∞` ball
(`if not bound.is_finite(): bound = IR(infinity)`). -/
def collapseBound (invabscst : Iv) (ser : List Iv) : Iv :=
  let b := Iv.aboveAbs (Iv.mul invabscst
    (ser.foldl (fun a c => Iv.add a (Iv.aboveAbs c)) (Iv.ofF Frac.zero)))
  if b.isFinite then b else Iv.pt EQ.inf

/-- `_bound_rat(n, ord)`: evaluation of the reciprocal polynomials on the
interval jet `[0,1/n] + ε + O(ε^ord)`, with the rigorous replacement of the
constant denominator coefficient when its ball meets zero, and the final
collapse of any non-finite bound to `+∞`. -/
def boundRat (s : RatSeqBound) (n : ℕ) (ord : ℕ) : List Iv :=
  let iv := Iv.union (Iv.ofF Frac.zero) (Iv.inv (Iv.ofF (Frac.ofNat n)))
  let jet0 : PolyIv := [Iv.ofF Frac.one, iv]
  let jet1 := PolyIv.invTrunc jet0 ord
  let jet := PolyIv.smulP iv jet1
  let nums := (rcpqNums s).map (fun num => PolyIv.composeTrunc num jet ord)
  let den0 := PolyIv.composeTrunc (rcpqDen s) jet ord
  let state :=
    if Iv.containsZero (PolyIv.coeff den0 0) then
      let lb := lboundDen s n
      let invabscst := Iv.union (Iv.ofF Frac.zero) (Iv.inv lb)
      let invcst := Iv.symmErr invabscst
      (invabscst,
        PolyIv.addP [Iv.ofF Frac.one]
          (PolyIv.shiftL (PolyIv.smulP invcst (PolyIv.shiftR den0 1)) 1))
    else (Iv.ofF Frac.one, den0)
  let invden := PolyIv.invTrunc state.2 ord
  let ser0 := PolyIv.mulTrunc jet1 invden ord
  nums.map (fun num => collapseBound state.1 (PolyIv.mulTrunc ser0 num ord))

/-- `ref(n)`: the reference value, one entry per numerator. -/
def ref (s : RatSeqBound) (n : ℕ) : List Iv :=
  let ord := s.ord
  let jet : PolyIv := [Iv.ofF (Frac.ofNat n), Iv.ofF Frac.one]
  let nums := (ivnums s).map (fun num => PolyIv.composeTrunc num jet ord)
  let mult := ((s.exn.lookup n).getD 0)
  let den := PolyIv.shiftR (PolyIv.composeTrunc (ivden s) jet (ord + mult)) mult
  let invden := PolyIv.invTrunc den ord
  let sers := nums.map (fun num => PolyIv.mulTrunc num invden ord)
  sers.map (fun ser =>
    Iv.mul (Iv.ofF (Frac.ofNat n))
      (ser.foldl (fun a c => Iv.add a (Iv.absIv c)) (Iv.ofF Frac.zero)))

def nextOrdAux (exn : List (ℕ × ℕ)) : ℕ → ℕ → ℕ
  | 0, m => m
  | f + 1, m => if memExnN exn m then nextOrdAux exn f (m + 1) else m

/-- The first ordinary (non-exceptional) index `≥ n`. -/
def nextOrdinary (exn : List (ℕ × ℕ)) (n : ℕ) : ℕ := nextOrdAux exn (exn.length + 1) n

/-- `_stairs` (cached in the source, invalidated on `extend`; pure here):
per numerator, the ascending list of `(edge, value)` pairs such that
`|ref(n)| ≤ value` for all `n ≥ edge`.  The `none` edge is the `(∞, 0)`
sentinel used during construction and removed at the end. -/
def stairs (s : RatSeqBound) : List (List (Option ℕ × Iv)) :=
  if s.exn.isEmpty then s.nums.map (fun _ => [])
  else
    let init0 : List (List (Option ℕ × Iv)) :=
      s.nums.map (fun _ => [((none : Option ℕ), Iv.ofF Frac.zero)])
    let final := (sortDesc (s.exn.map Prod.fst)).foldl (fun acc n =>
      let n1 := nextOrdinary s.exn n
      let refs := ref s n
      let rats := boundRat s n1 s.ord
      zip3W (fun rf rt seq =>
        let val := Iv.maxIv rf rt
        let lastv := ((seq.getLast?).getD ((none : Option ℕ), Iv.ofF Frac.zero)).2
        if EQ.gtB val.hi lastv.hi then seq ++ [(some n, val)] else seq)
        refs rats acc) init0
    final.map (fun seq => seq.reverse.dropLast)

/-- `_bound_exn(n)`: the value of the staircase at `n` (the value attached
to the smallest step edge that is `≥ n`, else zero). -/
def boundExn (s : RatSeqBound) (n : ℕ) : List Iv :=
  (stairs s).map (fun seq =>
    match seq.find? (fun ev => match ev.1 with | some k => decide (n ≤ k) | none => true) with
    | some ev => ev.2
    | none => Iv.ofF Frac.zero)

/-- `__call__(n)`: the published bound. -/
def call (s : RatSeqBound) (n : ℕ) : List Iv :=
  let be := boundExn s n
  if memExnN s.exn n then be
  else List.zipWith Iv.maxIv (boundRat s n s.ord) be

end RatSeqBound


/-! ### Concrete `RatSeqBound` instances used by witnesses and counterexamples -/

/-- The instance `RatSeqBound([3], n)` from the doctests (no exceptional
index). -/
def rsbOrdinary : RatSeqBound :=
  ⟨[[Frac.ofInt 3]], [Frac.zero, Frac.one], [], 1, [(Frac.zero, 1)]⟩

/-- An instance with denominator `n` and exceptional set `{0: 1}`. -/
def rsbExceptional : RatSeqBound :=
  ⟨[[Frac.ofInt 1]], [Frac.zero, Frac.one], [(0, 1)], 2, [(Frac.zero, 1)]⟩

/-- `rsbOrdinary` after an unchecked `extend` with the degree-2 numerator
`n^2` (denominator degree is 1). -/
def rsbBroken : RatSeqBound :=
  ⟨[[Frac.ofInt 3], [Frac.zero, Frac.zero, Frac.one]],
    [Frac.zero, Frac.one], [], 1, [(Frac.zero, 1)]⟩

/-- C2 counterexample: the construction precondition is enforced by
`__init__`, but `extend()` performs no degree check at all: extending a
well-formed `RatSeqBound` (here `RatSeqBound([3], n)`) with the numerator
`n^2` succeeds silently and leaves an object violating
`deg(num) < deg(den)`. -/
theorem ratSeqBound_extend_unchecked_cex :
    RatSeqBound.init [[Frac.ofInt 3]] [Frac.zero, Frac.one] [] none [(Frac.zero, 1)]
      = .ok rsbOrdinary
    ∧ RatSeqBound.degInvariant rsbOrdinary = true
    ∧ RatSeqBound.extend rsbOrdinary [[Frac.zero, Frac.zero, Frac.one]] = rsbBroken
    ∧ RatSeqBound.degInvariant rsbBroken = false :=
  ⟨rfl, rfl, rfl, rfl⟩

/-- C2 (amended): `__init__` rejects any numerator with
`deg(num) ≥ deg(den)` and hence every successfully constructed object
satisfies the invariant; `extend` preserves the invariant only for
numerators that themselves satisfy the degree bound (it performs no check
of its own). -/
theorem ratSeqBound_deg_invariant (nums : List PolyF) (den : PolyF)
    (exn : List (ℕ × ℕ)) (ordArg : Option ℕ) (droots : List (Frac × ℕ))
    (s t : RatSeqBound) (newNums : List PolyF) :
    ((∃ num ∈ nums, PolyF.deg den ≤ PolyF.deg num) →
      RatSeqBound.init nums den exn ordArg droots
        = .error "expected deg(num) < deg(den)")
    ∧ (RatSeqBound.init nums den exn ordArg droots = .ok s →
        RatSeqBound.degInvariant s = true)
    ∧ (RatSeqBound.degInvariant t = true →
        (∀ num ∈ newNums, PolyF.deg num < PolyF.deg t.den) →
        RatSeqBound.degInvariant (RatSeqBound.extend t newNums) = true) := by
  refine ⟨?_, ?_, ?_⟩
  · intro h
    obtain ⟨num, hmem, hdeg⟩ := h
    have hany : (nums.any (fun num => decide (PolyF.deg den ≤ PolyF.deg num))) = true :=
      List.any_eq_true.mpr ⟨num, hmem, by simpa using hdeg⟩
    unfold RatSeqBound.init
    simp only [hany, if_true]
  · intro h
    unfold RatSeqBound.init at h
    split at h
    · simp at h
    next hany =>
      dsimp only [] at h
      split at h
      · cases h
        have hany2 : (nums.any (fun num => decide (PolyF.deg den ≤ PolyF.deg num))) = false :=
          Bool.eq_false_iff.mpr hany
        have hall := List.any_eq_false.mp hany2
        unfold RatSeqBound.degInvariant
        refine List.all_eq_true.mpr (fun num hmem => ?_)
        have hlt : PolyF.deg num < PolyF.deg den :=
          lt_of_not_le (fun hle => (hall num hmem) (by simpa using hle))
        simpa using hlt
      · simp at h
  · intro hinv hnew
    unfold RatSeqBound.degInvariant at hinv
    show ((t.nums ++ newNums).all fun num => decide (PolyF.deg num < PolyF.deg t.den)) = true
    rw [List.all_append, hinv, Bool.true_and]
    exact List.all_eq_true.mpr (fun num hmem => by simpa using hnew num hmem)

/-- Witness for the amended C2 statement: the rejection fires on a
degree-1 numerator with degree-1 denominator; the constructed
`RatSeqBound([3], n)` satisfies the invariant; extending it with the
conforming numerator `2` keeps the invariant. -/
theorem ratSeqBound_deg_invariant_witness :
    RatSeqBound.init [[Frac.zero, Frac.one]] [Frac.zero, Frac.one] [] none []
      = .error "expected deg(num) < deg(den)"
    ∧ RatSeqBound.degInvariant rsbOrdinary = true
    ∧ RatSeqBound.degInvariant (RatSeqBound.extend rsbOrdinary [[Frac.ofInt 2]]) = true :=
  ⟨(ratSeqBound_deg_invariant [[Frac.zero, Frac.one]] [Frac.zero, Frac.one] [] none []
      rsbOrdinary rsbOrdinary [[Frac.ofInt 2]]).1
      ⟨[Frac.zero, Frac.one], by decide, by decide⟩,
   (ratSeqBound_deg_invariant [[Frac.ofInt 3]] [Frac.zero, Frac.one] [] none [(Frac.zero, 1)]
      rsbOrdinary rsbOrdinary [[Frac.ofInt 2]]).2.1 rfl,
   (ratSeqBound_deg_invariant [[Frac.ofInt 3]] [Frac.zero, Frac.one] [] none [(Frac.zero, 1)]
      rsbOrdinary rsbOrdinary [[Frac.ofInt 2]]).2.2 rfl (by decide)⟩

/-- C5: `RatSeqBound.__call__(n)` returns the staircase value
`_bound_exn(n)` at an exceptional index, and otherwise the componentwise
maximum of `_bound_rat(n, ord)` and `_bound_exn(n)`. -/
theorem ratSeqBound_call_dispatch (s : RatSeqBound) (n : ℕ) :
    (RatSeqBound.memExnN s.exn n = true →
      RatSeqBound.call s n = RatSeqBound.boundExn s n)
    ∧ (RatSeqBound.memExnN s.exn n = false →
      RatSeqBound.call s n
        = List.zipWith Iv.maxIv (RatSeqBound.boundRat s n s.ord)
            (RatSeqBound.boundExn s n)) := by
  unfold RatSeqBound.call
  constructor <;> intro h <;> simp [h]

/-- Witness for C5: the exceptional branch at index 0 of
`RatSeqBound([1], n·1, {0:1})`, and the ordinary branch at index 2 of
`RatSeqBound([3], n)`; the published values are the staircase value 2 and
the rational bound 3 respectively. -/
theorem ratSeqBound_call_dispatch_witness :
    (RatSeqBound.memExnN rsbExceptional.exn 0 = true
      ∧ RatSeqBound.call rsbExceptional 0 = RatSeqBound.boundExn rsbExceptional 0
      ∧ RatSeqBound.call rsbExceptional 0 = [Iv.ofF ⟨2, 1⟩])
    ∧ (RatSeqBound.memExnN rsbOrdinary.exn 2 = false
      ∧ RatSeqBound.call rsbOrdinary 2
          = List.zipWith Iv.maxIv (RatSeqBound.boundRat rsbOrdinary 2 rsbOrdinary.ord)
              (RatSeqBound.boundExn rsbOrdinary 2)
      ∧ RatSeqBound.call rsbOrdinary 2 = [Iv.ofF ⟨6, 2⟩]) :=
  ⟨⟨rfl, (ratSeqBound_call_dispatch rsbExceptional 0).1 rfl, by decide⟩,
   ⟨rfl, (ratSeqBound_call_dispatch rsbOrdinary 2).2 rfl, by decide⟩⟩

/-- Shape of the collapsed bound: always a nonnegative finite point ball or
the `+∞` ball, never NaN. -/
theorem collapseBound_shape (c : Iv) (ser : List Iv) :
    (∃ q : Frac, Frac.Le Frac.zero q
      ∧ RatSeqBound.collapseBound c ser = Iv.pt (EQ.fin q))
    ∨ RatSeqBound.collapseBound c ser = Iv.pt EQ.inf := by
  unfold RatSeqBound.collapseBound
  set z := Iv.mul c (ser.foldl (fun a c => Iv.add a (Iv.aboveAbs c)) (Iv.ofF Frac.zero)) with hz
  clear_value z
  obtain ⟨lo, hi⟩ := z
  cases lo <;> cases hi <;>
      simp [Iv.aboveAbs, Iv.pt, Iv.isFinite, EQ.abs, EQ.maxE, EQ.isFinite]
  split <;> simp [Frac.Le, Frac.absF, Frac.zero, abs_nonneg]

/-- C9: every component of the vector returned by `_bound_rat(n, ord)` is
either a finite nonnegative value or `+∞`; a NaN is never returned (any
non-finite intermediate bound is collapsed to `+∞`). -/
theorem ratSeqBound_boundRat_no_nan (s : RatSeqBound) (n ord : ℕ) (b : Iv)
    (hexn : RatSeqBound.memExnN s.exn n = false)
    (hb : b ∈ RatSeqBound.boundRat s n ord) :
    (∃ q : Frac, Frac.Le Frac.zero q ∧ b = Iv.pt (EQ.fin q)) ∨ b = Iv.pt EQ.inf := by
  rw [RatSeqBound.boundRat] at hb
  simp only [List.mem_map] at hb
  obtain ⟨num, _, hbeq⟩ := hb
  rw [← hbeq]
  exact collapseBound_shape _ _

/-- Witness for C9 at `RatSeqBound([3], n)`, `n = 2`, `ord = 1`: the single
component is the finite nonnegative point ball `3` (represented as `6/2`). -/
theorem ratSeqBound_boundRat_no_nan_witness :
    RatSeqBound.memExnN rsbOrdinary.exn 2 = false
    ∧ Iv.pt (EQ.fin ⟨6, 2⟩) ∈ RatSeqBound.boundRat rsbOrdinary 2 1
    ∧ ((∃ q : Frac, Frac.Le Frac.zero q ∧ Iv.pt (EQ.fin ⟨6, 2⟩) = Iv.pt (EQ.fin q))
        ∨ Iv.pt (EQ.fin ⟨6, 2⟩) = Iv.pt EQ.inf) :=
  ⟨rfl, by decide, ratSeqBound_boundRat_no_nan rsbOrdinary 2 1 _ rfl (by decide)⟩

/-! ### Majorant series (C7, C10)

`RationalMajorant` (an unevaluated sum of rational fractions with factored
denominators) and `HyperexpMajorant`
(`z^shift · num/den · exp(int(integrand))`), with the generic
`MajorantSeries.bound`.  The convergence radius is computed at construction
by `_zero_free_rad` and stored; it is never recomputed afterwards. -/

/-- `_zero_free_rad`: radius of a disk around the origin free of zeros of
the given polynomials; `none` models the `NotImplementedError` branch. -/
def zeroFreeRad (pols : List PolyF) : Option EQ :=
  if pols.all (fun pol => PolyF.deg pol = 0) then some EQ.inf
  else if pols.all (fun pol =>
      PolyF.deg pol = 1 && Frac.beq (Frac.absF (PolyF.leadCoeff pol)) Frac.one) then
    some (pols.foldl (fun acc pol =>
      EQ.minE acc (EQ.fin (Frac.absF (PolyF.coeff pol 0)))) EQ.inf)
  else none

/-- A rational majorant: list of fractions `(num, factored den)` (the
factorization unit is implicitly 1), with its stored convergence radius. -/
structure RationalMajorant where
  fracs : List (PolyF × List (PolyF × ℕ))
  cvrad : EQ
deriving DecidableEq, Repr

/-- `RationalMajorant.__init__`: the convergence radius is the zero-free
radius of the negated nonconstant denominator factors. -/
def mkRationalMajorant (fracs : List (PolyF × List (PolyF × ℕ))) :
    Option RationalMajorant :=
  let pols := ((fracs.map (fun fr => fr.2.map Prod.fst)).flatten.filter
    (fun fac => 0 < PolyF.deg fac)).map PolyF.negP
  (zeroFreeRad pols).map (fun r => ⟨fracs, r⟩)

/-- One summand of `RationalMajorant.series`/`bound_integral`: the composed
and truncated denominator of a factored fraction. -/
def denSeriesAt (den : List (PolyF × ℕ)) (pert : PolyF) (ord : ℕ) : PolyF :=
  den.foldl (fun acc lm =>
    PolyF.mulTrunc acc (PolyF.powTrunc (PolyF.compose lm.1 pert) lm.2 ord) ord)
    [Frac.one]

/-- `RationalMajorant.series(rad, ord)`: composition of each fraction with
`rad + ε`, truncated to `O(ε^ord)`; fails when a denominator series is not
invertible (exactly-zero constant term). -/
def ratMajSeriesAux (pert : PolyF) (ord : ℕ) :
    List (PolyF × List (PolyF × ℕ)) → Option PolyF
  | [] => some []
  | (num, den) :: rest => do
    let denSer := denSeriesAt den pert ord
    let inv ← PolyF.invTrunc denSer ord
    let numSer := PolyF.composeTrunc num pert ord
    let restS ← ratMajSeriesAux pert ord rest
    some (PolyF.addP restS (PolyF.mulTrunc numSer inv ord))

def RationalMajorant.series (m : RationalMajorant) (rad : Frac) (ord : ℕ) :
    Option PolyF :=
  ratMajSeriesAux [rad, Frac.one] ord m.fracs

/-- `RationalMajorant.bound_integral(rad, ord)`: same as `series` but with
`int(num, 0..z)` composed in place of `num` (the bound
`int(f·g) ≤ int(f)·g` for nonnegative-coefficient series). -/
def ratMajBoundIntegralAux (pert : PolyF) (ord : ℕ) :
    List (PolyF × List (PolyF × ℕ)) → Option PolyF
  | [] => some []
  | (num, den) :: rest => do
    let denSer := denSeriesAt den pert ord
    let inv ← PolyF.invTrunc denSer ord
    let numSer := PolyF.composeTrunc (PolyF.integral num) pert ord
    let restS ← ratMajBoundIntegralAux pert ord rest
    some (PolyF.addP restS (PolyF.mulTrunc numSer inv ord))

def RationalMajorant.boundIntegral (m : RationalMajorant) (rad : Frac) (ord : ℕ) :
    Option PolyF :=
  ratMajBoundIntegralAux [rad, Frac.one] ord m.fracs

/-- `HyperexpMajorant`: `z^shift · num(z)/den(z) · exp(int(integrand))`,
with the stored convergence radius. -/
structure HyperexpMajorant where
  integrand : RationalMajorant
  num : PolyF
  den : List (PolyF × ℕ)
  shift : ℕ
  cvrad : EQ
deriving DecidableEq, Repr

/-- `HyperexpMajorant.__init__`: the convergence radius is the minimum of
the integrand radius and the zero-free radius of the denominator factors. -/
def mkHyperexpMajorant (integrand : RationalMajorant) (num : PolyF)
    (den : List (PolyF × ℕ)) (shift : ℕ) : Option HyperexpMajorant :=
  (zeroFreeRad (den.map Prod.fst)).map
    (fun r => ⟨integrand, num, den, shift, EQ.minE integrand.cvrad r⟩)

namespace HyperexpMajorant

/-- `_den_expanded` (cached in the source, pure here). -/
def denExpanded (h : HyperexpMajorant) : PolyF :=
  h.den.foldl (fun acc pm => PolyF.mulP acc (PolyF.powP pm.1 pm.2)) [Frac.one]

/-- `bound_series(rad, ord)`: the rational prefactor jet times the
exponential of the bound-integral jet of the integrand, all mod `ε^ord`
(`shx_ser·num_ser·den_ser⁻¹·exp(int_ser)`). -/
def boundSeries (h : HyperexpMajorant) (rad : Frac) (ord : ℕ) : Option PolyF :=
  match PolyF.invTrunc (PolyF.composeTrunc (denExpanded h) [rad, Frac.one] ord) ord with
  | none => none
  | some dinv =>
    match h.integrand.boundIntegral rad ord with
    | none => none
    | some intSer =>
      match PolyF.expTrunc intSer ord with
      | none => none
      | some expSer =>
        some (PolyF.mulTrunc
          (PolyF.mulTrunc
            (PolyF.mulTrunc (PolyF.powTrunc [rad, Frac.one] h.shift ord)
              (PolyF.composeTrunc h.num [rad, Frac.one] ord) ord)
            dinv ord)
          expSer ord)

/-- `__imul__`: in-place multiplication by a polynomial; only `shift` and
`num` change. -/
def imul (h : HyperexpMajorant) (p : PolyF) : HyperexpMajorant :=
  { h with shift := h.shift + PolyF.valuation p,
           num := PolyF.mulP h.num (PolyF.shiftR p (PolyF.valuation p)) }

end HyperexpMajorant

/-- Result of `MajorantSeries.bound`: the `+∞` ball, a symbolic nonnegative
square root (`sqnorm.sqrtpos()` has no exact rational value), or a raised
exception from the series computation. -/
inductive BoundRes where
  | infRes
  | sqrtOf (q : Frac)
  | err
deriving DecidableEq, Repr

/-- `MajorantSeries.bound(rad, derivatives)`, generic over the variant
through its stored `cvrad` and its `bound_series` method:
`if not safe_le(rad, cvrad): return IR(infinity)`, else the square root of
the sum of squared coefficient bounds of `bound_series(rad, derivatives)`. -/
def majorantBound (cvrad : EQ) (bseries : Frac → ℕ → Option PolyF)
    (rad : Frac) (derivatives : ℕ) : BoundRes :=
  if EQ.leB (EQ.fin rad) cvrad then
    match bseries rad derivatives with
    | some ser => .sqrtOf (ser.foldl
        (fun a c => Frac.add a (Frac.mul (Frac.absF c) (Frac.absF c))) Frac.zero)
    | none => .err
  else .infRes

def HyperexpMajorant.bound (h : HyperexpMajorant) (rad : Frac) (derivatives : ℕ) :
    BoundRes :=
  majorantBound h.cvrad h.boundSeries rad derivatives

/-- The integrand `RationalMajorant([(0, one)])` (zero fraction, trivial
denominator): convergence radius `+∞`. -/
def rmConst : RationalMajorant :=
  (mkRationalMajorant [([Frac.zero], [])]).getD ⟨[], EQ.nan⟩

/-- The `HyperexpMajorant` `1/(1+z) · exp(int(0))`, whose stored
convergence radius is exactly 1. -/
def hypOne : HyperexpMajorant :=
  (mkHyperexpMajorant rmConst [Frac.one] [([Frac.one, Frac.one], 1)] 0).getD
    ⟨rmConst, [], [], 0, EQ.nan⟩

/-- C7 counterexample: at `rad = cvrad` (here both equal to 1, a radius
with `rad ≥ cvrad`), `bound` does **not** return `+∞`: the test in the
source is `not safe_le(rad, cvrad)`, which is false at equality, so the
Frobenius-norm branch is taken (here yielding `sqrt(5/16)`). -/
theorem majorantBound_boundary_cex :
    mkRationalMajorant [([Frac.zero], [])] = some rmConst
    ∧ mkHyperexpMajorant rmConst [Frac.one] [([Frac.one, Frac.one], 1)] 0 = some hypOne
    ∧ hypOne.cvrad = EQ.fin Frac.one
    ∧ EQ.leB hypOne.cvrad (EQ.fin Frac.one) = true
    ∧ HyperexpMajorant.bound hypOne Frac.one 2 ≠ BoundRes.infRes
    ∧ HyperexpMajorant.bound hypOne Frac.one 2 = BoundRes.sqrtOf ⟨320, 1024⟩ :=
  ⟨rfl, rfl, rfl, rfl, by decide, by decide⟩

/-- C7 (amended): `bound(rad, derivatives)` returns `+∞` exactly when
`rad ≤ cvrad` cannot be certified (for exact values: when `rad > cvrad`;
at `rad = cvrad` the finite branch is taken); in the finite branch it
returns the square root of the sum of squares of the absolute values of
the coefficients of `bound_series(rad, derivatives)`, a list which (for
the `HyperexpMajorant` variant) has exactly `derivatives` coefficients. -/
theorem majorantBound_branches (cvrad : EQ) (bs : Frac → ℕ → Option PolyF)
    (rad : Frac) (d : ℕ) (h : HyperexpMajorant) (r : Frac) (o : ℕ) :
    (EQ.leB (EQ.fin rad) cvrad = false → majorantBound cvrad bs rad d = .infRes)
    ∧ (EQ.leB (EQ.fin rad) cvrad = true → majorantBound cvrad bs rad d ≠ .infRes)
    ∧ (∀ ser, EQ.leB (EQ.fin rad) cvrad = true → bs rad d = some ser →
        majorantBound cvrad bs rad d = .sqrtOf (ser.foldl
          (fun a c => Frac.add a (Frac.mul (Frac.absF c) (Frac.absF c))) Frac.zero))
    ∧ (∀ ser, HyperexpMajorant.boundSeries h r o = some ser → ser.length = o) := by
  refine ⟨?_, ?_, ?_, ?_⟩
  · intro hle
    unfold majorantBound
    rw [if_neg (by simp [hle])]
  · intro hle
    unfold majorantBound
    rw [if_pos hle]
    cases bs rad d <;> simp
  · intro ser hle hser
    unfold majorantBound
    rw [if_pos hle, hser]
  · intro ser hser
    unfold HyperexpMajorant.boundSeries at hser
    split at hser
    · cases hser
    split at hser
    · cases hser
    split at hser
    · cases hser
    cases hser
    simp [PolyF.mulTrunc]

/-- Witness for the amended C7 statement at the `1/(1+z)·exp(int(0))`
instance: `rad = 2 > 1 = cvrad` gives `+∞`; `rad = 0 ≤ cvrad` takes the
finite square-root branch; `bound_series(0, 2)` has exactly 2
coefficients. -/
theorem majorantBound_branches_witness :
    majorantBound hypOne.cvrad hypOne.boundSeries ⟨2, 1⟩ 2 = .infRes
    ∧ majorantBound hypOne.cvrad hypOne.boundSeries Frac.zero 2 ≠ .infRes
    ∧ majorantBound hypOne.cvrad hypOne.boundSeries Frac.zero 2
        = .sqrtOf (((hypOne.boundSeries Frac.zero 2).getD []).foldl
            (fun a c => Frac.add a (Frac.mul (Frac.absF c) (Frac.absF c))) Frac.zero)
    ∧ ((hypOne.boundSeries Frac.zero 2).getD []).length = 2 :=
  ⟨(majorantBound_branches hypOne.cvrad hypOne.boundSeries ⟨2, 1⟩ 2 hypOne Frac.zero 2).1
      (by decide),
   (majorantBound_branches hypOne.cvrad hypOne.boundSeries Frac.zero 2 hypOne Frac.zero 2).2.1
      (by decide),
   (majorantBound_branches hypOne.cvrad hypOne.boundSeries Frac.zero 2 hypOne Frac.zero 2).2.2.1
      _ (by decide) rfl,
   (majorantBound_branches hypOne.cvrad hypOne.boundSeries Frac.zero 2 hypOne Frac.zero 2).2.2.2
      _ rfl⟩

/-- Specification of `PolyF.valuation` on nonzero polynomials: the
coefficient at the valuation index is nonzero and all lower coefficients
vanish. -/
theorem polyF_valuation_spec (p : PolyF) (hp : PolyF.isZero p = false) :
    PolyF.isZeroCo (PolyF.coeff p (PolyF.valuation p)) = false
    ∧ ∀ i, i < PolyF.valuation p → PolyF.isZeroCo (PolyF.coeff p i) = true := by
  induction p with
  | nil => simp [PolyF.isZero] at hp
  | cons a p ih =>
    by_cases ha : PolyF.isZeroCo a = true
    · by_cases hzp : PolyF.isZero p = true
      · exfalso
        have : PolyF.isZero (a :: p) = true := by
          simp [PolyF.isZero] at hzp ⊢
          exact ⟨by simpa [PolyF.isZeroCo] using ha, hzp⟩
        rw [this] at hp
        cases hp
      · have hval : PolyF.valuation (a :: p) = PolyF.valuation p + 1 := by
          simp [PolyF.valuation, ha, hzp]
        obtain ⟨h1, h2⟩ := ih (Bool.eq_false_iff.mpr hzp)
        refine ⟨by simpa [hval, PolyF.coeff] using h1, ?_⟩
        intro i hi
        rw [hval] at hi
        cases i with
        | zero => simpa [PolyF.coeff] using ha
        | succ i => exact (by simpa [PolyF.coeff] using h2 i (Nat.lt_of_succ_lt_succ hi))
    · have hval : PolyF.valuation (a :: p) = 0 := by
        simp [PolyF.valuation, ha]
      refine ⟨?_, ?_⟩
      · simpa [hval, PolyF.coeff] using Bool.eq_false_iff.mpr ha
      · intro i hi
        rw [hval] at hi
        cases hi

/-- C10: `HyperexpMajorant.__imul__` changes only `shift` (increased by the
valuation of `p`) and `num` (multiplied by `p` with the valuation divided
out); `integrand`, `den` and the stored `cvrad` are untouched.  The last
conjunct checks that `PolyF.valuation` really is the valuation of a
nonzero `p`. -/
theorem hyperexp_imul_frame (h : HyperexpMajorant) (p : PolyF) :
    (HyperexpMajorant.imul h p).shift = h.shift + PolyF.valuation p
    ∧ (HyperexpMajorant.imul h p).num
        = PolyF.mulP h.num (PolyF.shiftR p (PolyF.valuation p))
    ∧ (HyperexpMajorant.imul h p).integrand = h.integrand
    ∧ (HyperexpMajorant.imul h p).den = h.den
    ∧ (HyperexpMajorant.imul h p).cvrad = h.cvrad
    ∧ (PolyF.isZero p = false →
        PolyF.isZeroCo (PolyF.coeff p (PolyF.valuation p)) = false) :=
  ⟨rfl, rfl, rfl, rfl, rfl, fun hp => (polyF_valuation_spec p hp).1⟩

/-- Witness for C10 at the `1/(1+z)·exp(int(0))` instance multiplied by
`5z` (valuation 1): the shift becomes 1, the other fields are unchanged. -/
theorem hyperexp_imul_frame_witness :
    (HyperexpMajorant.imul hypOne [Frac.zero, Frac.ofInt 5]).shift
        = hypOne.shift + PolyF.valuation [Frac.zero, Frac.ofInt 5]
    ∧ (HyperexpMajorant.imul hypOne [Frac.zero, Frac.ofInt 5]).cvrad = hypOne.cvrad
    ∧ PolyF.isZero [Frac.zero, Frac.ofInt 5] = false
    ∧ PolyF.isZeroCo (PolyF.coeff [Frac.zero, Frac.ofInt 5]
        (PolyF.valuation [Frac.zero, Frac.ofInt 5])) = false
    ∧ (HyperexpMajorant.imul hypOne [Frac.zero, Frac.ofInt 5]).shift = 1 :=
  ⟨(hyperexp_imul_frame hypOne [Frac.zero, Frac.ofInt 5]).1,
   (hyperexp_imul_frame hypOne [Frac.zero, Frac.ofInt 5]).2.2.2.2.1,
   by decide,
   (hyperexp_imul_frame hypOne [Frac.zero, Frac.ofInt 5]).2.2.2.2.2 (by decide),
   by decide⟩

/-! ### `abs_min_nonzero_root` (C8)

Model of the Davenport–Mignotte Graeffe loop.  The per-iteration enclosure
`(-(1 + m) + encl) >> i` of the binary logarithm of the smallest nonzero
root modulus is computed in the source with `RealField`/`RIF` logarithm
arithmetic; logarithms of rationals are irrational, so this numeric step is
abstracted as a `stream` of intervals and the theorem quantifies over every
such stream.  Everything else — the left-right interval state, the
intersection of successive enclosures, the loop guard
`safe_le(lg_rad.lower(), min_log) or safe_gt(diam, tol)`, the
retry-at-higher-precision condition
`neg_infty in lg_rad or lg_rad.is_NaN() or stalled`, and the distinguished
`ValueError` raised when `safe_le(lg_rad.upper(), min_log)` — follows the
source.  The unbounded retry recursion is represented by the
`retryHigherPrec` outcome (each retry starts an independent run at doubled
precision), and fuel only models running out of observation steps. -/

/-- The loop guard: run while the lower endpoint still allows a root below
`2^min_log` or the diameter exceeds the tolerance. -/
def amnrGuard (lg : Iv) (minLog tol : EQ) : Bool :=
  EQ.leB lg.lo minLog || EQ.gtB (EQ.sub lg.hi lg.lo) tol

/-- `RIF` intersection (endpointwise). -/
def intersectIv (a b : Iv) : Iv := ⟨EQ.maxE a.lo b.lo, EQ.minE a.hi b.hi⟩

def isNaNIv (a : Iv) : Bool :=
  (a.lo == EQ.nan) || (a.hi == EQ.nan)

/-- `neg_infty in lg_rad or lg_rad.is_NaN() or stalled`: the intersected
enclosure is unusable, and the function restarts from scratch at doubled
working precision. -/
def amnrRetry (new prev : Iv) : Bool :=
  (new.lo == EQ.ninf) || isNaNIv new || (new == prev)

inductive AmnrOutcome where
  | done (res : Iv)
  | rootTooSmall
  | retryHigherPrec
  | outOfFuel
deriving DecidableEq, Repr

/-- The main loop of `abs_min_nonzero_root`: at each pass, intersect the
current enclosure with the fresh Davenport–Mignotte enclosure, retry at
higher precision if the result is unusable, raise the distinguished
root-too-small error if its upper endpoint is at or below `min_log`,
otherwise take the Graeffe iterate and continue. -/
def amnrLoop (stream : ℕ → Iv) (minLog tol : EQ) : ℕ → Iv → ℕ → AmnrOutcome
  | 0, _, _ => .outOfFuel
  | fuel + 1, lg, i =>
    if amnrGuard lg minLog tol then
      let new := intersectIv lg (stream i)
      if amnrRetry new lg then .retryHigherPrec
      else if EQ.leB new.hi minLog then .rootTooSmall
      else amnrLoop stream minLog tol fuel new (i + 1)
    else .done lg

/-- `abs_min_nonzero_root` enters the loop with `lg_rad = (-∞, ∞)`. -/
def amnrRun (stream : ℕ → Iv) (minLog tol : EQ) (fuel : ℕ) : AmnrOutcome :=
  amnrLoop stream minLog tol fuel ⟨EQ.ninf, EQ.inf⟩ 0

/-- C8: whenever an iteration produces a usable enclosure (one that does
not trigger the higher-precision retry) whose upper endpoint is at or below
`min_log`, the loop raises the distinguished root-too-small error instead
of returning a bound or continuing to iterate; moreover no normal return
ever has its lower endpoint at or below `min_log` (so a fortiori none has
its upper endpoint there). -/
theorem absMinNonzeroRoot_minlog_failure (stream : ℕ → Iv) (minLog tol : EQ)
    (fuel : ℕ) (lg : Iv) (i : ℕ)
    (hguard : amnrGuard lg minLog tol = true)
    (hretry : amnrRetry (intersectIv lg (stream i)) lg = false)
    (hsmall : EQ.leB (intersectIv lg (stream i)).hi minLog = true) :
    amnrLoop stream minLog tol (fuel + 1) lg i = .rootTooSmall
    ∧ ∀ f lg2 j res, amnrLoop stream minLog tol f lg2 j = .done res →
        EQ.leB res.lo minLog = false := by
  constructor
  · rw [amnrLoop]
    rw [if_pos hguard]
    dsimp only []
    rw [if_neg (by simp [hretry]), if_pos hsmall]
  · intro f
    induction f with
    | zero => intro lg2 j res h; cases h
    | succ f ih =>
      intro lg2 j res h
      rw [amnrLoop] at h
      by_cases hg : amnrGuard lg2 minLog tol = true
      · rw [if_pos hg] at h
        dsimp only [] at h
        by_cases hr : amnrRetry (intersectIv lg2 (stream j)) lg2 = true
        · rw [if_pos hr] at h; cases h
        · rw [if_neg hr] at h
          by_cases hs : EQ.leB (intersectIv lg2 (stream j)).hi minLog = true
          · rw [if_pos hs] at h; cases h
          · rw [if_neg hs] at h
            exact ih _ _ res h
      · rw [if_neg hg] at h
        cases h
        have hg2 : amnrGuard lg2 minLog tol = false := Bool.eq_false_iff.mpr hg
        unfold amnrGuard at hg2
        exact (Bool.or_eq_false_iff.mp hg2).1

/-- A constant observation stream used by the C8 witness. -/
def amnrStreamZero : ℕ → Iv := fun _ => Iv.pt (EQ.fin Frac.zero)

/-- Witness for C8: with the first usable enclosure equal to the point 0
and `min_log = 0`, the loop fails with the distinguished error at once. -/
theorem absMinNonzeroRoot_minlog_failure_witness :
    amnrLoop amnrStreamZero (EQ.fin Frac.zero) (EQ.fin Frac.one) 4 ⟨EQ.ninf, EQ.inf⟩ 0
      = .rootTooSmall
    ∧ ∀ f lg2 j res,
        amnrLoop amnrStreamZero (EQ.fin Frac.zero) (EQ.fin Frac.one) f lg2 j = .done res →
        EQ.leB res.lo (EQ.fin Frac.zero) = false :=
  absMinNonzeroRoot_minlog_failure amnrStreamZero (EQ.fin Frac.zero) (EQ.fin Frac.one)
    3 ⟨EQ.ninf, EQ.inf⟩ 0 (by decide) (by decide) (by decide)

/-! ### `DiffOpBound` (C1, C3, C4)

The orchestrator state and its two mutating entry points, `__init__` and
`refine()`.  The input operator is taken in its θ-form `dop_T` (the
`to_T` conversion lives in the surrounding `ore_algebra` package; the
doctest of `normalized_residual` pins `(Dt - 1).to_T` to `Tt - t`).  The
external collaborators are explicit oracle data:

* `amnr`, the value of `abs_min_nonzero_root(lc).below_abs()` used by the
  "simple" denominator-bound strategy;
* `poles`, the lower bounds `iv.abs().lower()` on the moduli of the roots
  of the leading coefficient used by the "solve" strategy (`_poles`);
* `indRoots`, the root data of the indicial polynomial consumed by the
  `RatSeqBound`s.
-/

def isOkE {ε α : Type} : Except ε α → Bool
  | .ok _ => true
  | .error _ => false

/-- `ZZ.nbits`. -/
def nbits (n : ℕ) : ℕ := if n = 0 then 0 else Nat.log2 n + 1

/-- `_dop_rcoeffs_of_T`: coefficients of the operator with θ moved to the
left, via `pol[j] += pow·binom(k+i, i)·dop[k+i][j]; pow *= -j`. -/
def dopRcoeffsOfT (dop : List PolyF) : List PolyF :=
  let ordlen := dop.length
  let deglen := 1 + (dop.map PolyF.natDeg).foldl max 0
  (List.range ordlen).map (fun k =>
    (List.range deglen).map (fun j =>
      ((List.range (ordlen - k)).foldl
        (fun acc i =>
          (Frac.add acc.1 (Frac.mul acc.2 (Frac.mul (Frac.ofNat (Nat.choose (k + i) i))
            (PolyF.coeff (dop.getD (k + i) []) j))),
           Frac.mul acc.2 (Frac.ofInt (-(j : ℤ)))))
        (Frac.zero, Frac.one)).1))

/-- `_switch_vars`: exchange the two variables of an element of
`K[x][y]` (outer index `y`, inner index `x`). -/
def switchVars (pol : List PolyF) : List PolyF :=
  if pol.all PolyF.isZero then []
  else
    let dy := pol.length - 1
    let dx := (pol.map PolyF.natDeg).foldl max 0
    (List.range (dx + 1)).map (fun i =>
      (List.range (dy + 1)).map (fun j => PolyF.coeff (pol.getD j []) i))

def zipSubP (a b : List PolyF) : List PolyF :=
  (List.range (max a.length b.length)).map
    (fun i => PolyF.subP (a.getD i []) (b.getD i []))

/-- `_split_dop(pol_part_len)`: split `dop · lc⁻¹` into the initial Taylor
part `first` (with the θ-leading coefficient forced to one) and the shifted
remainder numerator `rem_num`, both returned as elements of `K[n][z]`
(outer index `z`, inner polynomials in `n`).  Fails when the leading
coefficient has no series inverse (zero constant term). -/
def splitDop (dopT : List PolyF) (pplen : ℕ) : Option (List PolyF × List PolyF) :=
  let rcoeffs := dopRcoeffsOfT dopT
  let lc := dopT.getLastD []
  match PolyF.invTrunc lc (pplen + 1) with
  | none => none
  | some inv =>
    let firstZn := rcoeffs.map (fun pol => PolyF.mulTrunc pol inv (pplen + 1))
    let orddeq := dopT.length - 1
    let firstZn2 := (firstZn.take orddeq) ++ [[Frac.one]]
    let firstNz := switchVars firstZn2
    let rem0 := (zipSubP rcoeffs (firstZn2.map (fun pol => PolyF.mulP pol lc))).take orddeq
    some (firstNz, (switchVars rem0).drop (pplen + 1))

inductive BoundInverse where
  | simple
  | solve
deriving DecidableEq, Repr

/-- `_update_den_bound`: the pair `(cst, maj_den)` with
`cst = ~abs(lc.leading_coefficient())` and the factor list of the chosen
strategy (`amnr` and `poles` are the oracle values described above; the
`amnr` argument is only read by the "simple" strategy, the only branch
where the source calls the root solver). -/
def updateDenBound (bi : BoundInverse) (poles : List (Frac × ℕ)) (amnr : Frac)
    (dopT : List PolyF) : Frac × List (PolyF × ℕ) :=
  let den := dopT.getLastD []
  let facs :=
    if PolyF.deg den ≤ 0 then []
    else match bi with
      | .simple => [([amnr, Frac.neg Frac.one], PolyF.natDeg den)]
      | .solve => poles.map (fun rm => ([rm.1, Frac.neg Frac.one], rm.2))
  (Frac.inv (Frac.absF (PolyF.leadCoeff den)), facs)

/-- Composition with `leftmost + n` (evaluation at `self.alg_idx`). -/
def composeAffine (p : PolyF) (c : Frac) : PolyF := PolyF.compose p [c, Frac.one]

structure DiffOpBound where
  dopT : List PolyF
  leftmost : Frac
  specialShifts : List (ℕ × ℕ)
  maxEffort : ℕ
  effort : ℕ
  boundInverse : BoundInverse
  cst : Frac
  majDen : List (PolyF × ℕ)
  ind : PolyF
  indRoots : List (Frac × ℕ)
  majseqPolPart : RatSeqBound
  majseqNum : RatSeqBound
deriving DecidableEq, Repr

/-- `pol_part_len()`. -/
def polPartLen (s : DiffOpBound) : ℕ := s.majseqPolPart.nums.length

/-- `_update_num_bound(pol_part_len, first_nz, rem_num_nz)`: extend
`majseq_pol_part` with the coefficients `first_nz[old+1 .. pol_part_len]`
composed at `alg_idx` (checking the source assertion
`len(majseq_pol_part) == pol_part_len`), and rebuild `majseq_num` from the
remainder numerator coefficients. -/
def updateNumBound (s : DiffOpBound) (pplen : ℕ) (firstNz remNz : List PolyF) :
    Except String DiffOpBound :=
  let oldLen := s.majseqPolPart.nums.length
  let items := (List.range (pplen - oldLen)).map
    (fun t => composeAffine (firstNz.getD (oldLen + 1 + t) []) s.leftmost)
  let msp := s.majseqPolPart.extend items
  if msp.nums.length = pplen then
    match RatSeqBound.init (remNz.map (fun pol => composeAffine pol s.leftmost))
        s.ind s.specialShifts none s.indRoots with
    | .error e => .error e
    | .ok msn => .ok { s with majseqPolPart := msp, majseqNum := msn }
  else .error "assertion failed: len(majseq_pol_part) == pol_part_len"

/-- `DiffOpBound.__init__` on the θ-form operator: reject irregular
singular operators (θ-leading coefficient a nonconstant monomial), set the
initial effort from `bound_inverse` and `pol_part_len`, build the
denominator bound, split the operator, build the indicial polynomial and
the two `RatSeqBound`s.

The indicial polynomial is obtained in the source from the external
`indicial_polynomial` method.  Modelled from the spec: per the source
comment in `_split_dop` (`first_nz[0] == indicial_polynomial(z, n).monic()`
in exact arithmetic) and the spec description ("build the (shifted)
indicial polynomial" sharing the split), it is defined here as
`first_nz[0]` composed at `leftmost + n`, with the monicity assertion of
the source checked afterwards. -/
def diffOpBoundInit (dopT : List PolyF) (leftmost : Frac)
    (specialShifts : List (ℕ × ℕ)) (maxEffort pplen : ℕ)
    (boundInverse : BoundInverse) (amnr : Frac)
    (poles indRoots : List (Frac × ℕ)) : Except String DiffOpBound :=
  let lc := dopT.getLastD []
  if PolyF.isTerm lc && !(PolyF.isConst lc) then
    .error "irregular singular operator"
  else
    let effort0 := (if boundInverse = BoundInverse.solve then 1 else 0)
      + (if 2 < pplen then nbits (pplen - 2) else 0)
    let cd := updateDenBound boundInverse poles amnr dopT
    match splitDop dopT pplen with
    | none => .error "inverse_series_trunc: constant term is not a unit"
    | some fr =>
      let ind := composeAffine (fr.1.getD 0 []) leftmost
      if PolyF.isMonic ind then
        match RatSeqBound.init [] ind specialShifts none indRoots with
        | .error e => .error e
        | .ok msp =>
          updateNumBound
            { dopT := dopT, leftmost := leftmost, specialShifts := specialShifts,
              maxEffort := maxEffort, effort := effort0,
              boundInverse := boundInverse, cst := cd.1, majDen := cd.2,
              ind := ind, indRoots := indRoots,
              majseqPolPart := msp, majseqNum := msp }
            pplen fr.1 fr.2
      else .error "assertion failed: ind.is_monic()"

/-- `refine()`: a no-op once the effort counter has reached `max_effort`;
otherwise increment the counter and either switch the "simple" strategy to
"solve" and rebuild the denominator bound, or double (at least to 2) the
polynomial part and rebuild the split and the numerator bound. -/
def refine (poles : List (Frac × ℕ)) (s : DiffOpBound) : Except String DiffOpBound :=
  if s.maxEffort ≤ s.effort then .ok s
  else
    let s1 := { s with effort := s.effort + 1 }
    match s1.boundInverse with
    | .simple =>
      let s2 := { s1 with boundInverse := BoundInverse.solve }
      let cd := updateDenBound BoundInverse.solve poles Frac.zero s2.dopT
      .ok { s2 with cst := cd.1, majDen := cd.2 }
    | .solve =>
      let npl := max 2 (2 * polPartLen s1)
      match splitDop s1.dopT npl with
      | none => .error "inverse_series_trunc: constant term is not a unit"
      | some fr => updateNumBound s1 npl fr.1 fr.2

/-- Fallback-extraction of a successful `DiffOpBound` construction. -/
def getOkDOB (e : Except String DiffOpBound) : DiffOpBound :=
  match e with
  | .ok s => s
  | .error _ => ⟨[], Frac.zero, [], 0, 0, BoundInverse.simple, Frac.zero, [], [], [],
      ⟨[], [], [], 0, []⟩, ⟨[], [], [], 0, []⟩⟩

/-- θ-form of the order-1 operator `D - 1`: `θ - x` (the doctest
`(Dt - 1).to_T('Tt')` prints `Tt - t`). -/
def dopDx1T : List PolyF := [[Frac.zero, Frac.neg Frac.one], [Frac.one]]

/-- θ-form of `D^2`: `θ^2 - θ`. -/
def dopD2T : List PolyF := [[Frac.zero], [Frac.neg Frac.one], [Frac.one]]

/-- The orchestrator state built on `θ - x` (that is, on `D - 1`). -/
def dobDx1 : DiffOpBound :=
  getOkDOB (diffOpBoundInit dopDx1T Frac.zero [] 6 2 BoundInverse.simple Frac.zero []
    [(Frac.zero, 1)])

/-- C1 counterexample: constructing a `DiffOpBound` for the order-1
operator `D - 1` (θ-form `θ - x`) succeeds — it is not rejected.  Only the
irregular-singular check guards the constructor; several doctests
(`DiffOpBound(Dx - 1)`, `DiffOpBound(Dx - 1, pol_part_len=0)`) rely on
this. -/
theorem diffOpBound_order_one_accepted_cex :
    dopDx1T.length - 1 = 1
    ∧ diffOpBoundInit dopDx1T Frac.zero [] 6 2 BoundInverse.simple Frac.zero []
        [(Frac.zero, 1)] = .ok dobDx1
    ∧ isOkE (diffOpBoundInit dopDx1T Frac.zero [] 6 2 BoundInverse.simple Frac.zero []
        [(Frac.zero, 1)]) = true :=
  ⟨rfl, rfl, by decide⟩

/-- C1 (amended): the construction of a `DiffOpBound` fails with the
rejection error exactly for irregular singular operators — those whose
θ-form leading coefficient is a nonconstant monomial; the order of the
operator is not restricted (order-1 operators such as `D - 1` are
accepted, witnessed separately). -/
theorem diffOpBound_rejects_irregular (dopT : List PolyF) (leftmost : Frac)
    (specialShifts : List (ℕ × ℕ)) (maxEffort pplen : ℕ)
    (boundInverse : BoundInverse) (amnr : Frac) (poles indRoots : List (Frac × ℕ))
    (hterm : PolyF.isTerm (dopT.getLastD []) = true)
    (hconst : PolyF.isConst (dopT.getLastD []) = false) :
    diffOpBoundInit dopT leftmost specialShifts maxEffort pplen boundInverse amnr
      poles indRoots = .error "irregular singular operator" := by
  unfold diffOpBoundInit
  simp only [List.getLastD_eq_getLast?] at hterm hconst
  rw [if_pos (by simp [hterm, hconst])]

/-- Witness for the amended C1 statement: the irregular singular operator
`x·θ + 1` (θ-leading coefficient `x`) is rejected. -/
theorem diffOpBound_rejects_irregular_witness :
    PolyF.isTerm (([[Frac.one], [Frac.zero, Frac.one]] : List PolyF).getLastD []) = true
    ∧ PolyF.isConst (([[Frac.one], [Frac.zero, Frac.one]] : List PolyF).getLastD []) = false
    ∧ diffOpBoundInit [[Frac.one], [Frac.zero, Frac.one]] Frac.zero [] 6 2
        BoundInverse.simple Frac.zero [] [] = .error "irregular singular operator" :=
  ⟨by decide, by decide,
   diffOpBound_rejects_irregular [[Frac.one], [Frac.zero, Frac.one]] Frac.zero [] 6 2
     BoundInverse.simple Frac.zero [] [] (by decide) (by decide)⟩

/-- The orchestrator state built on `θ^2 - θ` (that is, on `D^2`) with
`pol_part_len=0` and the "solve" strategy. -/
def dobD2 : DiffOpBound :=
  getOkDOB (diffOpBoundInit dopD2T Frac.zero [] 6 0 BoundInverse.solve Frac.zero []
    [(Frac.zero, 1), (Frac.one, 1)])

/-- `dobD2` after one `refine()`. -/
def dobD2r : DiffOpBound := getOkDOB (refine [] dobD2)

/-- The same operator with the "simple" strategy (for the first `refine`
branch). -/
def dobD2s : DiffOpBound :=
  getOkDOB (diffOpBoundInit dopD2T Frac.zero [] 6 0 BoundInverse.simple Frac.zero []
    [(Frac.zero, 1), (Frac.one, 1)])

/-- `dobD2s` after one `refine()`. -/
def dobD2sr : DiffOpBound := getOkDOB (refine [] dobD2s)

/-- C3 counterexample: on a `DiffOpBound` with `pol_part_len = 0` (reached
for example by `DiffOpBound(dop, pol_part_len=0)`), the non-simple branch
of `refine()` sets the new polynomial-part length to
`max(2, 2·old) = 2`, which is *not* twice the old value `0`. -/
theorem diffOpBound_refine_pplen_cex :
    diffOpBoundInit dopD2T Frac.zero [] 6 0 BoundInverse.solve Frac.zero []
        [(Frac.zero, 1), (Frac.one, 1)] = .ok dobD2
    ∧ dobD2.boundInverse = BoundInverse.solve
    ∧ dobD2.effort < dobD2.maxEffort
    ∧ polPartLen dobD2 = 0
    ∧ refine [] dobD2 = .ok dobD2r
    ∧ polPartLen dobD2r = 2
    ∧ ¬ polPartLen dobD2r = 2 * polPartLen dobD2 :=
  ⟨rfl, rfl, by decide, rfl, rfl, by decide, by decide⟩


/-- On success, `_update_num_bound` leaves `majseq_pol_part` with exactly
`pol_part_len` entries (the source assertion). -/
theorem updateNumBound_polPartLen (s : DiffOpBound) (pplen : ℕ) (f r : List PolyF)
    (s' : DiffOpBound) (h : updateNumBound s pplen f r = .ok s') :
    polPartLen s' = pplen := by
  unfold updateNumBound at h
  split at h
  · dsimp only [] at h
    split at h
    · simp at h
    · simp at h
  · dsimp only [] at h
    split at h
    next hc =>
      rw [← (Except.ok.injEq _ _).mp h]
      exact hc
    · simp at h

/-- C3 (amended): a non-saturated `refine()` call either (when the
strategy is "simple") switches it to "solve" and rebuilds the denominator
bound, leaving the polynomial part untouched, or (otherwise) rebuilds the
polynomial part with new length `max(2, 2·old)` — twice the old length
whenever the old length is positive, but 2 when it is 0. -/
theorem diffOpBound_refine_branches (poles : List (Frac × ℕ)) (s s' : DiffOpBound)
    (heff : s.effort < s.maxEffort) (hok : refine poles s = .ok s') :
    (s.boundInverse = BoundInverse.simple →
      s'.boundInverse = BoundInverse.solve
      ∧ polPartLen s' = polPartLen s
      ∧ s'.majseqPolPart = s.majseqPolPart
      ∧ s'.majseqNum = s.majseqNum
      ∧ s'.cst = (updateDenBound BoundInverse.solve poles Frac.zero s.dopT).1
      ∧ s'.majDen = (updateDenBound BoundInverse.solve poles Frac.zero s.dopT).2)
    ∧ (s.boundInverse = BoundInverse.solve →
      polPartLen s' = max 2 (2 * polPartLen s)) := by
  unfold refine at hok
  rw [if_neg (Nat.not_le.mpr heff)] at hok
  have hproj : ({ s with effort := s.effort + 1 } : DiffOpBound).boundInverse
      = s.boundInverse := rfl
  constructor
  · intro hbi
    rw [hproj, hbi] at hok
    dsimp only [] at hok
    rw [← (Except.ok.injEq _ _).mp hok]
    exact ⟨rfl, rfl, rfl, rfl, rfl, rfl⟩
  · intro hbi
    rw [hproj, hbi] at hok
    dsimp only [] at hok
    split at hok
    · simp at hok
    next fr heq =>
      exact updateNumBound_polPartLen _ _ _ _ _ hok

/-- Witness for the amended C3 statement, on `θ^2 - θ`: the "simple"
instance switches to "solve" with the polynomial part untouched, and the
"solve" instance with `pol_part_len = 0` refines to length
`max(2, 2·0) = 2`. -/
theorem diffOpBound_refine_branches_witness :
    (dobD2sr.boundInverse = BoundInverse.solve
      ∧ polPartLen dobD2sr = polPartLen dobD2s)
    ∧ polPartLen dobD2r = max 2 (2 * polPartLen dobD2) :=
  ⟨⟨((diffOpBound_refine_branches [] dobD2s dobD2sr (by decide) rfl).1 rfl).1,
    ((diffOpBound_refine_branches [] dobD2s dobD2sr (by decide) rfl).1 rfl).2.1⟩,
   (diffOpBound_refine_branches [] dobD2 dobD2r (by decide) rfl).2 rfl⟩

/-- C4: each `refine()` call made while the effort counter is strictly
below `max_effort` increments the counter by exactly one; once the counter
has reached `max_effort`, `refine()` is a pure no-op returning the state
unchanged (hence every field — `bound_inverse`, `pol_part_len`, `cst`,
`maj_den`, `majseq_pol_part`, `majseq_num`, the effort counter — is left
untouched). -/
theorem diffOpBound_refine_effort (poles : List (Frac × ℕ)) (s : DiffOpBound) :
    (s.maxEffort ≤ s.effort → refine poles s = .ok s)
    ∧ (s.effort < s.maxEffort →
        ∀ s', refine poles s = .ok s' → s'.effort = s.effort + 1) := by
  constructor
  · intro h
    unfold refine
    rw [if_pos h]
  · intro h s' hok
    unfold refine at hok
    rw [if_neg (Nat.not_le.mpr h)] at hok
    rcases hbi : ({ s with effort := s.effort + 1 } : DiffOpBound).boundInverse
    · rw [hbi] at hok
      dsimp only [] at hok
      rw [← (Except.ok.injEq _ _).mp hok]
    · rw [hbi] at hok
      dsimp only [] at hok
      split at hok
      · simp at hok
      next fr heq =>
        unfold updateNumBound at hok
        split at hok
        · dsimp only [] at hok
          split at hok
          · simp at hok
          · simp at hok
        · dsimp only [] at hok
          split at hok
          · rw [← (Except.ok.injEq _ _).mp hok]
          · simp at hok

/-- The `θ^2 - θ` instance with `max_effort = 0`, already saturated at
construction. -/
def dobD2cap : DiffOpBound :=
  getOkDOB (diffOpBoundInit dopD2T Frac.zero [] 0 2 BoundInverse.simple Frac.zero []
    [(Frac.zero, 1), (Frac.one, 1)])

/-- Witness for C4: a saturated state is returned unchanged, and a
non-saturated `refine()` increments the effort counter from 1 to 2. -/
theorem diffOpBound_refine_effort_witness :
    refine [] dobD2cap = .ok dobD2cap
    ∧ dobD2.effort < dobD2.maxEffort
    ∧ dobD2r.effort = dobD2.effort + 1 :=
  ⟨(diffOpBound_refine_effort [] dobD2cap).1 (by decide),
   by decide,
   (diffOpBound_refine_effort [] dobD2).2 (by decide) dobD2r rfl⟩
